import Mathlib

/-!
# Verification of the `vortera` Voronoi terrain builder

A shallow embedding of `src/lib.rs` (`VoronoiTerrainBuilder::build` and the
surrounding data model).  Coordinates (`f64` in the source) are embedded as
rationals; the external tessellation engine (`Delaunay2D::export_voronoi_regions`)
and the coherent-noise function (`Fbm::new().set_seed(seed).get([x, y])`) are
passed in as function parameters, matching the spec's capability view of them.
`HashMap` is embedded as an association list whose lookup returns the most
recent insertion (the overwrite semantics of `HashMap::insert`); the two
panicking operations inside `build` (`expect` on the region lookup, `unwrap`
on the vertex-to-incident-edges removal) are embedded as `Option`.
-/

/-- 3D vector over ℚ, standing for both `cgmath::Point3<f64>` and
`cgmath::Vector3<f64>`. -/
structure Vec3 where
  x : ℚ
  y : ℚ
  z : ℚ
deriving DecidableEq, Repr

namespace Vec3

/-- `Vector3::zero()`. -/
def zero : Vec3 := ⟨0, 0, 0⟩

/-- Componentwise subtraction (`Point3 - Point3` in cgmath). -/
def sub (a b : Vec3) : Vec3 := ⟨a.x - b.x, a.y - b.y, a.z - b.z⟩

/-- `cgmath` cross product. -/
def cross (a b : Vec3) : Vec3 :=
  ⟨a.y * b.z - a.z * b.y, a.z * b.x - a.x * b.z, a.x * b.y - a.y * b.x⟩

/-- `cgmath` dot product. -/
def dot (a b : Vec3) : ℚ := a.x * b.x + a.y * b.y + a.z * b.z

/-- Scalar multiple. -/
def smul (k : ℚ) (a : Vec3) : Vec3 := ⟨k * a.x, k * a.y, k * a.z⟩

end Vec3

/-- `TerrainVertex` of `src/lib.rs`. -/
structure TerrainVertex where
  position : Vec3
  normal : Vec3
  /-- Indices into the set of terrain edges. -/
  edges : List Nat
deriving DecidableEq, Repr

/-- `Region` of `src/lib.rs`. -/
structure Region where
  center : Vec3
  normal : Vec3
  /-- Indices into the set of region edges. -/
  edges : List Nat
deriving DecidableEq, Repr

/-- `Graph<T>` of `src/lib.rs`. -/
structure Graph (T : Type) where
  vertices : List T
  edges : List (Nat × Nat)
deriving DecidableEq, Repr

/-- `VoronoiTerrain` of `src/lib.rs`. -/
structure VoronoiTerrain where
  terrain_graph : Graph TerrainVertex
  region_graph : Graph Region
  water_level : Nat
deriving DecidableEq, Repr

/-- `VoronoiTerrainBuilder` of `src/lib.rs` (`f64` sites as rationals). -/
structure VoronoiTerrainBuilder where
  seed : Nat
  water_level : Nat
  height : Nat
  sites : List (ℚ × ℚ)
deriving DecidableEq, Repr

/-! ## Association-list embedding of `std::collections::HashMap`

Insertion conses the new binding in front, lookup takes the first match:
observationally the overwrite semantics of `HashMap::insert`/`get`. -/

/-- Lookup in a `HashMap<(usize, usize), usize>`. -/
def alookup : List ((Nat × Nat) × Nat) → Nat × Nat → Option Nat
  | [], _ => none
  | (k, v) :: rest, q => if k = q then some v else alookup rest q

/-- Lookup in the `HashMap<usize, Vec<usize>>` of incident edges (also models
`remove`, which is used once per key). -/
def ebvLookup : List (Nat × List Nat) → Nat → Option (List Nat)
  | [], _ => none
  | (k, v) :: rest, q => if k = q then some v else ebvLookup rest q

/-- `terrain_edges_by_vertex_index.entry(v).or_insert(Vec::new()).push(idx)`:
append `idx` to the list bound to `v`, binding `v` to `[idx]` when absent. -/
def ebvPush : List (Nat × List Nat) → Nat → Nat → List (Nat × List Nat)
  | [], v, idx => [(v, [idx])]
  | (k, l) :: rest, v, idx =>
    if k = v then (k, l ++ [idx]) :: rest else (k, l) :: ebvPush rest v idx

/-! ## The edge-and-adjacency loop of `build` -/

/-- The mutable state of the double loop in `build` (lines 78–124 of
`src/lib.rs`). -/
structure BuildState where
  /-- `terrain_edges_by_vertex_index`. -/
  ebv : List (Nat × List Nat)
  /-- `terrain_edges`. -/
  terrain_edges : List (Nat × Nat)
  /-- `region_edges`. -/
  region_edges : List (Nat × Nat)
  /-- `region_by_terrain_edge`. -/
  rbte : List ((Nat × Nat) × Nat)
  /-- `terrain_edge_index_by_edge`. -/
  teibe : List ((Nat × Nat) × Nat)
deriving DecidableEq, Repr

/-- The empty initial state. -/
def BuildState.init : BuildState := ⟨[], [], [], [], []⟩

/-- The directed edges of one cell, in winding order with wraparound:
position `i` contributes `(cell[i], cell[(i + 1) % cell.len()])`. -/
def directedEdges (c : List Nat) : List (Nat × Nat) :=
  (List.range c.length).map (fun i => (c.getD i 0, c.getD ((i + 1) % c.length) 0))

/-- The flattened iteration of the double loop starting at region index `r`:
one `(region_index, current, next)` triple per directed edge, cells in order,
positions in order. -/
def buildStepsAux : Nat → List (List Nat) → List (Nat × Nat × Nat)
  | _, [] => []
  | r, c :: rest => (directedEdges c).map (fun e => (r, e.1, e.2)) ++ buildStepsAux (r + 1) rest

/-- The flattened iteration of the double loop of `build`
(`for (region_index, dt_cell) in dt_cells.iter().enumerate()` and, inside,
`for (vertex_index, current_vertex_index) in dt_cell.iter().enumerate()`). -/
def buildSteps (cells : List (List Nat)) : List (Nat × Nat × Nat) :=
  buildStepsAux 0 cells

/-- One iteration of the inner loop of `build`.  Matches lines 95–123 of
`src/lib.rs`: look up the reverse directed edge; on a hit push a region edge
`(region_index, other_region)` and reuse the stored index (the `expect` on the
region lookup is embedded as `none`); on a miss record the forward edge in
both lookup tables — the source stores `*current_vertex_index` as the table
value — push it as a new terrain edge, and use its position.  Either way the
resulting index is appended to `edges_by_vertex[current]`. -/
def stepO (st : BuildState) (s : Nat × Nat × Nat) : Option BuildState :=
  let r := s.1
  let cur := s.2.1
  let nxt := s.2.2
  let rev := (nxt, cur)
  match alookup st.teibe rev with
  | some edge_index =>
    match alookup st.rbte rev with
    | some other =>
      some { st with
               region_edges := st.region_edges ++ [(r, other)],
               ebv := ebvPush st.ebv cur edge_index }
    | none => none
  | none =>
    let edge := (cur, nxt)
    some { st with
             rbte := (edge, r) :: st.rbte,
             teibe := (edge, cur) :: st.teibe,
             terrain_edges := st.terrain_edges ++ [edge],
             ebv := ebvPush st.ebv cur st.terrain_edges.length }

/-- The whole edge-and-adjacency loop. -/
def edgePhase (cells : List (List Nat)) : Option BuildState :=
  List.foldlM stepO BuildState.init (buildSteps cells)

/-! ## Vertex and region construction -/

/-- The terrain-vertex loop of `build` (lines 126–135): for the vertex with
index `i` and coordinates `(x, y)`, position `(x, y, noise(x, y))`, zero
normal, and the incident-edge list removed from the map (`unwrap` embedded as
`none`). -/
def mkVertices (noiseAt : ℚ → ℚ → ℚ) (m : List (Nat × List Nat)) :
    List (ℚ × ℚ) → Nat → Option (List TerrainVertex)
  | [], _ => some []
  | p :: rest, i =>
    match ebvLookup m i with
    | none => none
    | some es =>
      match mkVertices noiseAt m rest (i + 1) with
      | none => none
      | some vs =>
        some ({ position := ⟨p.1, p.2, noiseAt p.1 p.2⟩, normal := Vec3.zero, edges := es } :: vs)

/-- The region loop of `build` (lines 140–155).  The source computes
`normal = e1.cross(e2)` and then calls `normal.normalize()` but discards the
returned value, so the stored normal is the raw cross product; the center is
left at the origin and the edge list empty.  The four indexings
(`dt_cell[0]`, `dt_cell[1]`, `dt_cell[2]`, `terrain_vertices[...]`) panic on
out-of-range input and are embedded as `Option`. -/
def mkRegion (verts : List TerrainVertex) (c : List Nat) : Option Region := do
  let i0 ← c.get? 0
  let i1 ← c.get? 1
  let i2 ← c.get? 2
  let v0 ← verts.get? i0
  let v1 ← verts.get? i1
  let v2 ← verts.get? i2
  let e1 := Vec3.sub v1.position v0.position
  let e2 := Vec3.sub v2.position v0.position
  pure { center := ⟨0, 0, 0⟩, normal := Vec3.cross e1 e2, edges := [] }

/-- The body of `build` after the tessellation call: from the decomposition's
vertices and cells (and the seeded noise function and configured water level)
to the assembled `VoronoiTerrain`.  `none` stands for a panic. -/
def buildFrom (noiseAt : ℚ → ℚ → ℚ) (dtV : List (ℚ × ℚ)) (cells : List (List Nat))
    (water : Nat) : Option VoronoiTerrain := do
  let st ← edgePhase cells
  let tverts ← mkVertices noiseAt st.ebv dtV 0
  let regions ← cells.mapM (mkRegion tverts)
  pure { terrain_graph := ⟨tverts, st.terrain_edges⟩,
         region_graph := ⟨regions, st.region_edges⟩,
         water_level := water }

/-! ## The builder API -/

namespace VoronoiTerrainBuilder

/-- `VoronoiTerrainBuilder::new`.  The source draws the default seed from
`rand::thread_rng()`; that draw is the only impure input, passed here as the
parameter `rng_seed`. -/
def new (rng_seed : Nat) : VoronoiTerrainBuilder :=
  { seed := rng_seed, water_level := 50, height := 100, sites := [] }

/-- `set_seed`. -/
def set_seed (b : VoronoiTerrainBuilder) (seed : Nat) : VoronoiTerrainBuilder :=
  { b with seed := seed }

/-- `set_sites`. -/
def set_sites (b : VoronoiTerrainBuilder) (sites : List (ℚ × ℚ)) : VoronoiTerrainBuilder :=
  { b with sites := sites }

/-- `set_water_level`. -/
def set_water_level (b : VoronoiTerrainBuilder) (water_level : Nat) : VoronoiTerrainBuilder :=
  { b with water_level := water_level }

/-- `set_height`. -/
def set_height (b : VoronoiTerrainBuilder) (height : Nat) : VoronoiTerrainBuilder :=
  { b with height := height }

/-- `build`, parameterized by the tessellation capability
(`decompose sites = (vertices, cells)`) and the noise capability
(`noiseF seed x y`), both deterministic functions as the spec assumes. -/
def build (decompose : List (ℚ × ℚ) → List (ℚ × ℚ) × List (List Nat))
    (noiseF : Nat → ℚ → ℚ → ℚ) (b : VoronoiTerrainBuilder) : Option VoronoiTerrain :=
  buildFrom (noiseF b.seed) (decompose b.sites).1 (decompose b.sites).2 b.water_level

end VoronoiTerrainBuilder

/-- `VoronoiTerrain::builder()`. -/
def VoronoiTerrain.builder (rng_seed : Nat) : VoronoiTerrainBuilder :=
  VoronoiTerrainBuilder.new rng_seed

/-! ## Spec-side notions -/

/-- The unordered reading of a directed edge: the pair with its smaller
endpoint first. -/
def unord (e : Nat × Nat) : Nat × Nat :=
  if e.1 ≤ e.2 then e else (e.2, e.1)

/-- Consistent winding, in the operative form the spec relies on ("a shared
boundary is traversed in opposite directions by its two neighbouring cells"):
no directed edge is traversed twice across the decomposition. -/
def windingConsistent (cells : List (List Nat)) : Prop :=
  (cells.flatMap directedEdges).Nodup

instance (cells : List (List Nat)) : Decidable (windingConsistent cells) := by
  unfold windingConsistent
  infer_instance

/-- The tessellation contract of §4.2/§6 of the spec: every cell is a polygon
(at least 3 vertices, listed without repetition) with indices valid into the
vertex list, and the winding is consistent. -/
def tessContract (nverts : Nat) (cells : List (List Nat)) : Prop :=
  (∀ c ∈ cells, 3 ≤ c.length ∧ c.Nodup ∧ ∀ i ∈ c, i < nverts) ∧
    windingConsistent cells

instance (nverts : Nat) (cells : List (List Nat)) :
    Decidable (tessContract nverts cells) := by
  unfold tessContract
  infer_instance

/-- The default `TerrainVertex` used with `List.getD`. -/
def dfltV : TerrainVertex := { position := Vec3.zero, normal := Vec3.zero, edges := [] }

/-- The default `Region` used with `List.getD`. -/
def dfltR : Region := { center := Vec3.zero, normal := Vec3.zero, edges := [] }

/-- The default `VoronoiTerrain` used with `Option.getD`. -/
def emptyTerrain : VoronoiTerrain :=
  { terrain_graph := ⟨[], []⟩, region_graph := ⟨[], []⟩, water_level := 0 }

/-- The spec-side statement that `n` is the unit-length normalization of `c`
(§4.4 "normalized cross product"), phrased without square roots: `n` has unit
length and is a positive scalar multiple of `c`. -/
def isNormalizedOf (n c : Vec3) : Prop :=
  Vec3.dot n n = 1 ∧ ∃ k : ℚ, 0 < k ∧ n = Vec3.smul k c

/-! ## Destructuring `buildFrom` -/

/-- A successful `build` decomposes into its three successful stages. -/
theorem buildFrom_eq {noiseAt : ℚ → ℚ → ℚ} {dtV : List (ℚ × ℚ)} {cells : List (List Nat)}
    {w : Nat} {t : VoronoiTerrain} (h : buildFrom noiseAt dtV cells w = some t) :
    ∃ st tverts regions, edgePhase cells = some st ∧
      mkVertices noiseAt st.ebv dtV 0 = some tverts ∧
      cells.mapM (mkRegion tverts) = some regions ∧
      t = { terrain_graph := ⟨tverts, st.terrain_edges⟩,
            region_graph := ⟨regions, st.region_edges⟩,
            water_level := w } := by
  unfold buildFrom at h
  simp only [Option.bind_eq_bind, Option.bind_eq_some, Option.pure_def,
    Option.some.injEq] at h
  obtain ⟨st, hst, tverts, hv, regions, hr, ht⟩ := h
  exact ⟨st, tverts, regions, hst, hv, hr, ht.symm⟩

/-- The configured water level only enters the final record: the rest of the
output does not depend on it. -/
theorem buildFrom_water (noiseAt : ℚ → ℚ → ℚ) (dtV : List (ℚ × ℚ))
    (cells : List (List Nat)) (w : Nat) :
    buildFrom noiseAt dtV cells w =
      (buildFrom noiseAt dtV cells 0).map (fun t => { t with water_level := w }) := by
  unfold buildFrom
  cases hst : edgePhase cells with
  | none => rfl
  | some st =>
    simp only [Option.bind_eq_bind, Option.some_bind]
    cases hv : mkVertices noiseAt st.ebv dtV 0 with
    | none => rfl
    | some tverts =>
      simp only [Option.some_bind]
      cases hr : cells.mapM (mkRegion tverts) with
      | none => rfl
      | some regions => rfl

/-! ## Lemmas about `mkVertices` -/

/-- `mkVertices` preserves length. -/
theorem mkVertices_length {noiseAt : ℚ → ℚ → ℚ} {m : List (Nat × List Nat)} :
    ∀ {vs : List (ℚ × ℚ)} {k : Nat} {l : List TerrainVertex},
      mkVertices noiseAt m vs k = some l → l.length = vs.length := by
  intro vs
  induction vs with
  | nil =>
    intro k l h
    simp only [mkVertices] at h
    simp [← Option.some.inj h]
  | cons p rest ih =>
    intro k l h
    simp only [mkVertices] at h
    cases hl : ebvLookup m k with
    | none => rw [hl] at h; exact absurd h (by simp)
    | some es =>
      rw [hl] at h
      cases hr : mkVertices noiseAt m rest (k + 1) with
      | none => rw [hr] at h; exact absurd h (by simp)
      | some vs' =>
        rw [hr] at h
        simp only [Option.some.injEq] at h
        subst h
        simp [ih hr]

/-- The vertex built at offset `i` of `mkVertices` starting at index `k`:
position `(x, y, noise x y)`, zero normal, and the incident-edge list looked
up at key `k + i`. -/
theorem mkVertices_getD {noiseAt : ℚ → ℚ → ℚ} {m : List (Nat × List Nat)} :
    ∀ {vs : List (ℚ × ℚ)} {k : Nat} {l : List TerrainVertex},
      mkVertices noiseAt m vs k = some l → ∀ i, i < vs.length →
      ∃ es, ebvLookup m (k + i) = some es ∧
        l.getD i dfltV =
          { position := ⟨(vs.getD i (0, 0)).1, (vs.getD i (0, 0)).2,
                         noiseAt (vs.getD i (0, 0)).1 (vs.getD i (0, 0)).2⟩,
            normal := Vec3.zero, edges := es } := by
  intro vs
  induction vs with
  | nil => intro k l h i hi; exact absurd hi (by simp)
  | cons p rest ih =>
    intro k l h i hi
    simp only [mkVertices] at h
    cases hl : ebvLookup m k with
    | none => rw [hl] at h; exact absurd h (by simp)
    | some es =>
      rw [hl] at h
      cases hr : mkVertices noiseAt m rest (k + 1) with
      | none => rw [hr] at h; exact absurd h (by simp)
      | some vs' =>
        rw [hr] at h
        simp only [Option.some.injEq] at h
        subst h
        cases i with
        | zero => exact ⟨es, by simpa using hl, rfl⟩
        | succ j =>
          have hj : j < rest.length := by simpa using hi
          obtain ⟨es', hes', hv⟩ := ih hr j hj
          refine ⟨es', ?_, ?_⟩
          · rw [← hes']; ring_nf
          · simpa using hv

/-- Every vertex produced by `mkVertices` takes its incident-edge list from
the vertex-to-edges map. -/
theorem mkVertices_edges_mem {noiseAt : ℚ → ℚ → ℚ} {m : List (Nat × List Nat)} :
    ∀ {vs : List (ℚ × ℚ)} {k : Nat} {l : List TerrainVertex},
      mkVertices noiseAt m vs k = some l →
      ∀ v ∈ l, ∃ j, ebvLookup m j = some v.edges := by
  intro vs
  induction vs with
  | nil =>
    intro k l h v hv
    simp only [mkVertices] at h
    rw [← Option.some.inj h] at hv
    exact absurd hv (by simp)
  | cons p rest ih =>
    intro k l h v hv
    simp only [mkVertices] at h
    cases hl : ebvLookup m k with
    | none => rw [hl] at h; exact absurd h (by simp)
    | some es =>
      rw [hl] at h
      cases hr : mkVertices noiseAt m rest (k + 1) with
      | none => rw [hr] at h; exact absurd h (by simp)
      | some vs' =>
        rw [hr] at h
        simp only [Option.some.injEq] at h
        subst h
        rcases List.mem_cons.mp hv with hv | hv
        · exact ⟨k, by rw [hl, hv]⟩
        · exact ih hr v hv

/-- `mkVertices` succeeds exactly when every index it visits is a key of the
vertex-to-edges map. -/
theorem mkVertices_isSome {noiseAt : ℚ → ℚ → ℚ} {m : List (Nat × List Nat)} :
    ∀ {vs : List (ℚ × ℚ)} {k : Nat},
      (mkVertices noiseAt m vs k).isSome ↔
        ∀ i, i < vs.length → (ebvLookup m (k + i)).isSome := by
  intro vs
  induction vs with
  | nil => intro k; simp [mkVertices]
  | cons p rest ih =>
    intro k
    constructor
    · intro h i hi
      simp only [mkVertices] at h
      cases hl : ebvLookup m k with
      | none => rw [hl] at h; exact absurd h (by simp)
      | some es =>
        cases i with
        | zero => simp [hl]
        | succ j =>
          rw [hl] at h
          cases hr : mkVertices noiseAt m rest (k + 1) with
          | none => rw [hr] at h; exact absurd h (by simp)
          | some vs' =>
            have : (mkVertices noiseAt m rest (k + 1)).isSome := by simp [hr]
            have hj := ih.mp this j (by simpa using hi)
            have : k + (j + 1) = k + 1 + j := by ring
            rw [this]
            exact hj
    · intro h
      simp only [mkVertices]
      cases hl : ebvLookup m k with
      | none =>
        have := h 0 (by simp)
        rw [Nat.add_zero, hl] at this
        exact absurd this (by simp)
      | some es =>
        have : (mkVertices noiseAt m rest (k + 1)).isSome := by
          refine ih.mpr ?_
          intro j hj
          have hkj := h (j + 1) (by simpa using hj)
          have heq : k + (j + 1) = k + 1 + j := by ring
          rwa [heq] at hkj
        cases hr : mkVertices noiseAt m rest (k + 1) with
        | none => rw [hr] at this; exact absurd this (by simp)
        | some vs' => simp

/-- `List.mapM` over `Option` preserves length. -/
theorem mapM_option_length {α β : Type} {f : α → Option β} :
    ∀ {l : List α} {l' : List β}, l.mapM f = some l' → l'.length = l.length := by
  intro l
  induction l with
  | nil =>
    intro l' h
    rw [List.mapM_nil, Option.pure_def] at h
    simp [← Option.some.inj h]
  | cons a rest ih =>
    intro l' h
    rw [List.mapM_cons] at h
    simp only [Option.bind_eq_bind, Option.bind_eq_some, Option.pure_def,
      Option.some.injEq] at h
    obtain ⟨b, hf, bs, hr, hl⟩ := h
    subst hl
    simp [ih hr]

/-! ## Concrete inputs used by witnesses and counterexamples -/

/-- The zero noise function. -/
def noiseZ : ℚ → ℚ → ℚ := fun _ _ => 0

/-- A nonconstant noise function. -/
def noiseW : ℚ → ℚ → ℚ := fun x y => x + 2 * y

/-- Four decomposition vertices. -/
def dtV1 : List (ℚ × ℚ) := [(0, 0), (1, 0), (0, 1), (1, 1)]

/-- Two triangles sharing the undirected boundary `{1, 2}`, wound
consistently: the first traverses `(2, 1)`, the second `(1, 2)`. -/
def cells1 : List (List Nat) := [[0, 2, 1], [1, 2, 3]]

/-- Three decomposition vertices spanning a right triangle of leg 2. -/
def dtV3 : List (ℚ × ℚ) := [(0, 0), (2, 0), (0, 2)]

/-- A single triangular cell. -/
def cells3 : List (List Nat) := [[0, 1, 2]]

/-- A constant tessellation capability returning a unit right triangle. -/
def dec0 : List (ℚ × ℚ) → List (ℚ × ℚ) × List (List Nat) :=
  fun _ => ([(0, 0), (1, 0), (0, 1)], [[0, 1, 2]])

/-- A seed-sensitive noise capability. -/
def noise0 : Nat → ℚ → ℚ → ℚ := fun s x y => (s : ℚ) + x + y

/-- A builder with seed 42, water level 1, height 5. -/
def bA : VoronoiTerrainBuilder := ⟨42, 1, 5, [(0, 0)]⟩

/-- A builder with the same seed and sites as `bA` but different water level
and height. -/
def bB : VoronoiTerrainBuilder := ⟨42, 7, 9, [(0, 0)]⟩

/-- The terrain built from the triangle `dtV3`/`cells3` with noise `noiseW`. -/
def T8 : VoronoiTerrain := (buildFrom noiseW dtV3 cells3 50).getD emptyTerrain

/-! ## Claims -/

/-- C1: the claim says the index reused at a reverse-edge hit and appended to
`edges_by_vertex[current]` equals the position, in the terrain edge sequence,
of the terrain edge registered when the reverse direction was first seen.  On
two consistently wound triangles sharing the boundary `{1, 2}` the code
appends `2` (the value `terrain_edge_index_by_edge` stored, which is the
*first endpoint vertex index* `*current_vertex_index` of the registered edge
`(2, 1)`), while the registered edge `(2, 1)` sits at position `1` of the
terrain edge sequence — so vertex 1's incident list ends `[2, 2]` instead of
`[2, 1]`.  No new terrain edge is appended at the hit, as the claim says. -/
theorem claim_C1_bug :
    tessContract 4 cells1 ∧
    (buildFrom noiseZ dtV1 cells1 50).map
        (fun t => ((t.terrain_graph.vertices.getD 1 dfltV).edges, t.terrain_graph.edges))
      = some ([2, 2], [(0, 2), (2, 1), (1, 0), (2, 3), (3, 1)]) ∧
    [((0 : Nat), (2 : Nat)), (2, 1), (1, 0), (2, 3), (3, 1)].getD 1 (0, 0) = (2, 1) := by
  refine ⟨by decide, by decide, by decide⟩

/-- C3: the claim says each region's stored normal is the unit-length
normalization of the cross product of the edge vectors from the cell's first
vertex to its second and third.  The source calls `normal.normalize()` but
discards the returned value (cgmath's `normalize` is not in-place), so the
stored normal is the raw cross product: on a right triangle with legs 2 and
zero noise the stored normal is `(0, 0, 4)`, which has squared length 16 and
is not the unit normalization of the cross product. -/
theorem claim_C3_bug :
    (buildFrom noiseZ dtV3 cells3 50).map
        (fun t => (t.region_graph.vertices.getD 0 dfltR).normal) = some ⟨0, 0, 4⟩ ∧
    ¬ isNormalizedOf ⟨0, 0, 4⟩
        (Vec3.cross (Vec3.sub ⟨2, 0, 0⟩ ⟨0, 0, 0⟩) (Vec3.sub ⟨0, 2, 0⟩ ⟨0, 0, 0⟩)) := by
  constructor
  · with_unfolding_all rfl
  · intro hn
    exact absurd hn.1 (by norm_num [Vec3.dot])

/-- C6: building twice with the same seed and the same site list (the
tessellation and noise capabilities being fixed deterministic functions)
yields identical terrain graphs — hence identical vertex heights — and
identical region graphs, whatever the other configuration fields are. -/
theorem claim_C6 (decompose : List (ℚ × ℚ) → List (ℚ × ℚ) × List (List Nat))
    (noiseF : Nat → ℚ → ℚ → ℚ) (b1 b2 : VoronoiTerrainBuilder)
    (hseed : b1.seed = b2.seed) (hsites : b1.sites = b2.sites) :
    (VoronoiTerrainBuilder.build decompose noiseF b1).map
        (fun t => (t.terrain_graph, t.region_graph)) =
      (VoronoiTerrainBuilder.build decompose noiseF b2).map
        (fun t => (t.terrain_graph, t.region_graph)) := by
  unfold VoronoiTerrainBuilder.build
  rw [hseed, hsites]
  rw [buildFrom_water (noiseF b2.seed) (decompose b2.sites).1 (decompose b2.sites).2
    b1.water_level]
  rw [buildFrom_water (noiseF b2.seed) (decompose b2.sites).1 (decompose b2.sites).2
    b2.water_level]
  cases buildFrom (noiseF b2.seed) (decompose b2.sites).1 (decompose b2.sites).2 0 <;> rfl

/-- Witness for C6: two builders sharing seed 42 and a one-point site list
but differing in water level and height build the same two graphs. -/
theorem claim_C6_witness :
    bA.seed = bB.seed ∧ bA.sites = bB.sites ∧
    (VoronoiTerrainBuilder.build dec0 noise0 bA).map
        (fun t => (t.terrain_graph, t.region_graph)) =
      (VoronoiTerrainBuilder.build dec0 noise0 bB).map
        (fun t => (t.terrain_graph, t.region_graph)) :=
  ⟨rfl, rfl, claim_C6 dec0 noise0 bA bB rfl rfl⟩

/-- C7: `build` never reads the `height` configuration: a builder whose
height was set to any value builds the very same output. -/
theorem claim_C7 (decompose : List (ℚ × ℚ) → List (ℚ × ℚ) × List (List Nat))
    (noiseF : Nat → ℚ → ℚ → ℚ) (b : VoronoiTerrainBuilder) (h : Nat) :
    VoronoiTerrainBuilder.build decompose noiseF (b.set_height h) =
      VoronoiTerrainBuilder.build decompose noiseF b := rfl

/-- C8: in a successful build, the vertex built for the decomposition vertex
`(x, y)` at index `i` has position `(x, y, noise x y)` and the zero normal. -/
theorem claim_C8 (noiseAt : ℚ → ℚ → ℚ) (dtV : List (ℚ × ℚ)) (cells : List (List Nat))
    (w : Nat) (t : VoronoiTerrain) (h : buildFrom noiseAt dtV cells w = some t)
    (i : Nat) (hi : i < dtV.length) :
    (t.terrain_graph.vertices.getD i dfltV).position =
      ⟨(dtV.getD i (0, 0)).1, (dtV.getD i (0, 0)).2,
        noiseAt (dtV.getD i (0, 0)).1 (dtV.getD i (0, 0)).2⟩ ∧
    (t.terrain_graph.vertices.getD i dfltV).normal = Vec3.zero := by
  obtain ⟨st, tverts, regions, hst, hv, hr, rfl⟩ := buildFrom_eq h
  obtain ⟨es, hes, hvtx⟩ := mkVertices_getD hv i hi
  constructor <;> rw [hvtx]

/-- Witness for C8: vertex 1 of the triangle build carries position
`(2, 0, noiseW 2 0)` and the zero normal. -/
theorem claim_C8_witness :
    buildFrom noiseW dtV3 cells3 50 = some T8 ∧ 1 < dtV3.length ∧
    ((T8.terrain_graph.vertices.getD 1 dfltV).position =
        ⟨(dtV3.getD 1 (0, 0)).1, (dtV3.getD 1 (0, 0)).2,
          noiseW (dtV3.getD 1 (0, 0)).1 (dtV3.getD 1 (0, 0)).2⟩ ∧
      (T8.terrain_graph.vertices.getD 1 dfltV).normal = Vec3.zero) :=
  ⟨rfl, by decide, claim_C8 noiseW dtV3 cells3 50 T8 rfl 1 (by decide)⟩

/-- C9: a fresh builder defaults to water level 50, height 100 and an empty
site list (its seed being the random draw passed in), and the built terrain
carries the configured water level through unchanged. -/
theorem claim_C9 (rng_seed : Nat) :
    (VoronoiTerrain.builder rng_seed).water_level = 50 ∧
    (VoronoiTerrain.builder rng_seed).height = 100 ∧
    (VoronoiTerrain.builder rng_seed).sites = [] ∧
    ∀ decompose noiseF (b : VoronoiTerrainBuilder) (t : VoronoiTerrain),
      VoronoiTerrainBuilder.build decompose noiseF b = some t →
      t.water_level = b.water_level := by
  refine ⟨rfl, rfl, rfl, ?_⟩
  intro decompose noiseF b t h
  obtain ⟨st, tverts, regions, _, _, _, rfl⟩ := buildFrom_eq h
  rfl

/-- Witness for C9: the defaults at seed 7, and the water level of a concrete
build equalling its builder's configured water level. -/
theorem claim_C9_witness :
    (VoronoiTerrain.builder 7).water_level = 50 ∧
    (VoronoiTerrain.builder 7).height = 100 ∧
    (VoronoiTerrain.builder 7).sites = [] ∧
    ((VoronoiTerrainBuilder.build dec0 noise0 bA).getD emptyTerrain).water_level =
      bA.water_level :=
  ⟨(claim_C9 7).1, (claim_C9 7).2.1, (claim_C9 7).2.2.1,
    (claim_C9 7).2.2.2 dec0 noise0 bA ((VoronoiTerrainBuilder.build dec0 noise0 bA).getD
      emptyTerrain) rfl⟩

/-! ## Basic lemmas about the association lists -/

/-- A successful lookup is a member of the association list. -/
theorem alookup_mem : ∀ {m : List ((Nat × Nat) × Nat)} {k : Nat × Nat} {v : Nat},
    alookup m k = some v → (k, v) ∈ m := by
  intro m
  induction m with
  | nil => intro k v h; exact absurd h (by simp [alookup])
  | cons p rest ih =>
    intro k v h
    rcases p with ⟨k', v'⟩
    by_cases hk : k' = k
    · subst hk
      simp only [alookup, if_pos, Option.some.injEq] at h
      rw [← h]
      exact List.mem_cons_self _ _
    · simp only [alookup, if_neg hk] at h
      exact List.mem_cons_of_mem _ (ih h)

/-- Looking up over a cons with a different key falls through. -/
theorem alookup_cons_ne {m : List ((Nat × Nat) × Nat)} {k q : Nat × Nat} {v : Nat}
    (h : k ≠ q) : alookup ((k, v) :: m) q = alookup m q := by
  simp [alookup, h]

/-- Looking up the key just pushed by `ebvPush` returns the old list (empty
when the key was absent) with the index appended. -/
theorem ebvLookup_push_self : ∀ (m : List (Nat × List Nat)) (c i : Nat),
    ebvLookup (ebvPush m c i) c = some ((ebvLookup m c).getD [] ++ [i]) := by
  intro m
  induction m with
  | nil => intro c i; simp [ebvPush, ebvLookup]
  | cons p rest ih =>
    intro c i
    rcases p with ⟨k, l⟩
    by_cases hk : k = c
    · subst hk
      simp [ebvPush, ebvLookup]
    · simp only [ebvPush, if_neg hk, ebvLookup]
      exact ih c i

/-- Looking up any other key is unchanged by `ebvPush`. -/
theorem ebvLookup_push_ne : ∀ (m : List (Nat × List Nat)) {c : Nat} (i : Nat) {v : Nat},
    v ≠ c → ebvLookup (ebvPush m c i) v = ebvLookup m v := by
  intro m
  induction m with
  | nil =>
    intro c i v hv
    have hv' : ¬(c = v) := fun h => hv h.symm
    simp [ebvPush, ebvLookup, hv']
  | cons p rest ih =>
    intro c i v hv
    have hv' : ¬(c = v) := fun h => hv h.symm
    rcases p with ⟨k, l⟩
    by_cases hk : k = c
    · subst hk
      simp only [ebvPush, if_pos rfl, ebvLookup]
      rw [if_neg hv', if_neg hv']
    · simp only [ebvPush, if_neg hk, ebvLookup]
      by_cases hkv : k = v
      · simp [hkv]
      · rw [if_neg hkv, if_neg hkv]
        exact ih i hv

/-! ## Lemmas about `directedEdges` and `buildSteps` -/

/-- Reading each position of a list through `getD` reproduces the list. -/
theorem map_getD_range : ∀ (c : List Nat),
    (List.range c.length).map (fun i => c.getD i 0) = c := by
  intro c
  apply List.ext_get (by simp)
  intro i h1 h2
  have hi : i < c.length := by simpa using h1
  simp [List.getD_eq_getElem?_getD, List.getElem?_eq_getElem hi]

/-- Membership in `directedEdges`, unpacked. -/
theorem mem_directedEdges {e : Nat × Nat} {c : List Nat} :
    e ∈ directedEdges c ↔
      ∃ i, i < c.length ∧ e = (c.getD i 0, c.getD ((i + 1) % c.length) 0) := by
  simp only [directedEdges, List.mem_map, List.mem_range]
  constructor
  · rintro ⟨i, hi, rfl⟩; exact ⟨i, hi, rfl⟩
  · rintro ⟨i, hi, rfl⟩; exact ⟨i, hi, rfl⟩

/-- Both components of a directed edge of a cell are members of the cell. -/
theorem directedEdges_comp_mem {e : Nat × Nat} {c : List Nat}
    (h : e ∈ directedEdges c) : e.1 ∈ c ∧ e.2 ∈ c := by
  obtain ⟨i, hi, rfl⟩ := mem_directedEdges.mp h
  have hlen : 0 < c.length := Nat.lt_of_le_of_lt (Nat.zero_le _) hi
  constructor
  · have := List.getD_eq_getElem c 0 hi
    rw [this]
    exact List.getElem_mem _
  · have hj : (i + 1) % c.length < c.length := Nat.mod_lt _ hlen
    have := List.getD_eq_getElem c 0 hj
    rw [this]
    exact List.getElem_mem _

/-- The first components of a cell's directed edges are the cell itself. -/
theorem directedEdges_map_fst (c : List Nat) :
    (directedEdges c).map Prod.fst = c := by
  unfold directedEdges
  rw [List.map_map]
  exact map_getD_range c

/-- Unpacking membership in the flattened loop. -/
theorem buildStepsAux_mem : ∀ {cs : List (List Nat)} {r : Nat} {s : Nat × Nat × Nat},
    s ∈ buildStepsAux r cs →
    ∃ k, k < cs.length ∧ s.1 = r + k ∧ (s.2.1, s.2.2) ∈ directedEdges (cs.getD k []) := by
  intro cs
  induction cs with
  | nil => intro r s h; exact absurd h (by simp [buildStepsAux])
  | cons c rest ih =>
    intro r s h
    rcases List.mem_append.mp h with h | h
    · obtain ⟨e, he, rfl⟩ := List.mem_map.mp h
      exact ⟨0, by simp, by simp, by simpa using he⟩
    · obtain ⟨k, hk, hr, he⟩ := ih h
      exact ⟨k + 1, by simpa using hk, by omega, by simpa using he⟩

/-- The current-vertex components of the flattened loop are the concatenation
of the cells. -/
theorem buildStepsAux_map_cur : ∀ (cs : List (List Nat)) (r : Nat),
    (buildStepsAux r cs).map (fun s => s.2.1) = cs.flatMap id := by
  intro cs
  induction cs with
  | nil => intro r; simp [buildStepsAux]
  | cons c rest ih =>
    intro r
    simp only [buildStepsAux, List.map_append, List.map_map, List.flatMap_cons, id]
    rw [ih]
    congr 1
    have : ((fun s => s.2.1) ∘ fun (e : Nat × Nat) => ((r, e.1, e.2) : Nat × Nat × Nat))
        = Prod.fst := rfl
    rw [this]
    exact directedEdges_map_fst c

/-- The directed-edge components of the flattened loop are the concatenation
of the cells' directed edges. -/
theorem buildStepsAux_map_edge : ∀ (cs : List (List Nat)) (r : Nat),
    (buildStepsAux r cs).map (fun s => (s.2.1, s.2.2)) = cs.flatMap directedEdges := by
  intro cs
  induction cs with
  | nil => intro r; simp [buildStepsAux]
  | cons c rest ih =>
    intro r
    simp only [buildStepsAux, List.map_append, List.map_map, List.flatMap_cons]
    rw [ih]
    congr 1
    have hfun : ((fun (s : Nat × Nat × Nat) => (s.2.1, s.2.2)) ∘
        fun (e : Nat × Nat) => ((r, e.1, e.2) : Nat × Nat × Nat)) = id := rfl
    rw [hfun, List.map_id]

/-! ## Lemmas about `unord` -/

/-- `unord` ignores direction. -/
theorem unord_swap (a b : Nat) : unord (a, b) = unord (b, a) := by
  unfold unord
  rcases Nat.lt_trichotomy a b with h | h | h
  · rw [if_pos (Nat.le_of_lt h), if_neg (by omega)]
  · subst h; rfl
  · rw [if_neg (by omega), if_pos (Nat.le_of_lt h)]

/-- Two directed edges with the same unordered reading are equal or opposite. -/
theorem unord_eq_cases {e f : Nat × Nat} (h : unord e = unord f) :
    e = f ∨ e = (f.2, f.1) := by
  rcases e with ⟨a, b⟩
  rcases f with ⟨c, d⟩
  unfold unord at h
  by_cases h1 : a ≤ b <;> by_cases h2 : c ≤ d
  · rw [if_pos h1, if_pos h2] at h
    exact Or.inl h
  · rw [if_pos h1, if_neg h2] at h
    exact Or.inr h
  · rw [if_neg h1, if_pos h2] at h
    simp only [Prod.mk.injEq] at h ⊢
    exact Or.inr ⟨h.2, h.1⟩
  · rw [if_neg h1, if_neg h2] at h
    simp only [Prod.mk.injEq] at h ⊢
    exact Or.inl ⟨h.2, h.1⟩

/-! ## The generic invariant-threading lemma for the loop -/

/-- Folding a fallible step over the remaining iteration preserves an
invariant indexed by the processed prefix. -/
theorem foldlM_option_inv {σ α : Type} (f : σ → α → Option σ)
    (P : σ → List α → List α → Prop)
    (hstep : ∀ s done a rest, P s done (a :: rest) →
      ∃ s', f s a = some s' ∧ P s' (done ++ [a]) rest) :
    ∀ (rem done : List α) (s : σ), P s done rem →
      ∃ s', List.foldlM f s rem = some s' ∧ P s' (done ++ rem) [] := by
  intro rem
  induction rem with
  | nil =>
    intro done s h
    exact ⟨s, rfl, by simpa using h⟩
  | cons a rest ih =>
    intro done s h
    obtain ⟨s1, hf, hP⟩ := hstep s done a rest h
    obtain ⟨s2, hfold, hP2⟩ := ih (done ++ [a]) s1 hP
    refine ⟨s2, ?_, ?_⟩
    · rw [List.foldlM_cons, hf]
      simpa using hfold
    · simpa [List.append_assoc] using hP2

/-! ## The loop invariant -/

/-- The invariant carried through the edge-and-adjacency loop.  `done` is the
processed prefix of the flattened iteration and `rem` the remainder.  The two
final fields are conditional on winding consistency of the whole input. -/
structure LoopInv (cells : List (List Nat)) (st : BuildState)
    (done rem : List (Nat × Nat × Nat)) : Prop where
  split_eq : done ++ rem = buildSteps cells
  lock : ∀ k, (alookup st.teibe k).isSome → (alookup st.rbte k).isSome
  keys : ∀ e, (alookup st.teibe e).isSome ↔ e ∈ st.terrain_edges
  tval : ∀ p ∈ st.teibe, p.2 = p.1.1 ∧ ∃ r, (r, p.1.1, p.1.2) ∈ done
  rmem : ∀ p ∈ st.rbte, (p.2, p.1.1, p.1.2) ∈ done
  emem : ∀ e ∈ st.terrain_edges, ∃ r, (r, e.1, e.2) ∈ done
  cover : ∀ s ∈ done, ∃ e ∈ st.terrain_edges, unord e = unord (s.2.1, s.2.2)
  ecount : st.region_edges.length + st.terrain_edges.length = done.length
  rprov : ∀ q ∈ st.region_edges, ∃ a b, (q.1, a, b) ∈ done ∧ ((b, a), q.2) ∈ st.rbte
  vkeys : ∀ v, (ebvLookup st.ebv v).isSome ↔ v ∈ done.map (fun s => s.2.1)
  vidx : ∀ v l, ebvLookup st.ebv v = some l →
    ∀ idx ∈ l, idx < st.terrain_edges.length ∨ ∃ p ∈ st.teibe, idx = p.2
  nodupTE : ((buildSteps cells).map (fun s => (s.2.1, s.2.2))).Nodup →
    st.terrain_edges.Pairwise (fun e f => unord e ≠ unord f)
  firstTE : ((buildSteps cells).map (fun s => (s.2.1, s.2.2))).Nodup →
    ∀ e ∈ st.terrain_edges, ∃ d1 s0 d2, done = d1 ++ s0 :: d2 ∧
      (s0.2.1, s0.2.2) = e ∧ ∀ s' ∈ d1, unord (s'.2.1, s'.2.2) ≠ unord e

/-- The invariant holds at the start of the loop. -/
theorem LoopInv.start (cells : List (List Nat)) :
    LoopInv cells BuildState.init [] (buildSteps cells) := by
  refine ⟨rfl, ?_, ?_, ?_, ?_, ?_, ?_, rfl, ?_, ?_, ?_, ?_, ?_⟩
  · intro k h; simp [BuildState.init, alookup] at h
  · intro e; simp [BuildState.init, alookup]
  · intro p hp; simp [BuildState.init] at hp
  · intro p hp; simp [BuildState.init] at hp
  · intro e he; simp [BuildState.init] at he
  · intro s hs; simp at hs
  · intro q hq; simp [BuildState.init] at hq
  · intro v; simp [BuildState.init, ebvLookup]
  · intro v l h; simp [BuildState.init, ebvLookup] at h
  · intro _; simp [BuildState.init]
  · intro _ e he; simp [BuildState.init] at he

/-- Under winding consistency, the directed edge about to be processed cannot
already be a stored terrain edge. -/
theorem not_stored_of_nodup {cells : List (List Nat)} {st : BuildState}
    {done rem : List (Nat × Nat × Nat)} {r cur nxt : Nat}
    (H : LoopInv cells st done ((r, cur, nxt) :: rem))
    (hnd : ((buildSteps cells).map (fun s => (s.2.1, s.2.2))).Nodup) :
    (cur, nxt) ∉ st.terrain_edges := by
  intro hmem
  obtain ⟨r', hr'⟩ := H.emem _ hmem
  have h1 : (cur, nxt) ∈ done.map (fun s => (s.2.1, s.2.2)) :=
    List.mem_map_of_mem _ hr'
  rw [← H.split_eq, List.map_append] at hnd
  have hdisj := (List.nodup_append.mp hnd).2.2
  exact hdisj h1 (by simp)

/-- One loop iteration succeeds and preserves the invariant. -/
theorem LoopInv.step {cells : List (List Nat)} {st : BuildState}
    {done rem : List (Nat × Nat × Nat)} {s : Nat × Nat × Nat}
    (H : LoopInv cells st done (s :: rem)) :
    ∃ st', stepO st s = some st' ∧ LoopInv cells st' (done ++ [s]) rem := by
  obtain ⟨r, cur, nxt⟩ := s
  have hsplit : (done ++ [(r, cur, nxt)]) ++ rem = buildSteps cells := by
    rw [List.append_assoc]; exact H.split_eq
  cases hrev : alookup st.teibe (nxt, cur) with
  | some edge_index =>
    have hsome : (alookup st.rbte (nxt, cur)).isSome := H.lock _ (by simp [hrev])
    obtain ⟨other, hother⟩ := Option.isSome_iff_exists.mp hsome
    refine ⟨{ st with region_edges := st.region_edges ++ [(r, other)],
                      ebv := ebvPush st.ebv cur edge_index }, ?_, ?_⟩
    · simp [stepO, hrev, hother]
    refine ⟨hsplit, H.lock, H.keys, ?_, ?_, ?_, ?_, ?_, ?_, ?_, ?_, H.nodupTE, ?_⟩
    · intro p hp
      obtain ⟨hv, r', hr'⟩ := H.tval p hp
      exact ⟨hv, r', List.mem_append_left _ hr'⟩
    · intro p hp
      exact List.mem_append_left _ (H.rmem p hp)
    · intro e he
      obtain ⟨r', hr'⟩ := H.emem e he
      exact ⟨r', List.mem_append_left _ hr'⟩
    · intro s' hs'
      rcases List.mem_append.mp hs' with hs' | hs'
      · exact H.cover s' hs'
      · have hs'' : s' = (r, cur, nxt) := by simpa using hs'
        subst hs''
        refine ⟨(nxt, cur), H.keys _ |>.mp (by simp [hrev]), ?_⟩
        exact unord_swap nxt cur
    · have := H.ecount
      simp only [List.length_append, List.length_singleton]
      omega
    · intro q hq
      rcases List.mem_append.mp hq with hq | hq
      · obtain ⟨a, b, hd, hb⟩ := H.rprov q hq
        exact ⟨a, b, List.mem_append_left _ hd, hb⟩
      · have hq' : q = (r, other) := by simpa using hq
        subst hq'
        exact ⟨cur, nxt, List.mem_append_right _ (by simp), alookup_mem hother⟩
    · intro v
      by_cases hv : cur = v
      · subst hv
        rw [ebvLookup_push_self]
        simp
      · have hv' : ¬(v = cur) := fun h => hv h.symm
        rw [ebvLookup_push_ne _ _ hv']
        rw [H.vkeys v]
        simp [hv']
    · intro v l hl idx hidx
      by_cases hv : cur = v
      · subst hv
        rw [ebvLookup_push_self] at hl
        have hl' : l = (ebvLookup st.ebv cur).getD [] ++ [edge_index] := (Option.some.inj hl).symm
        subst hl'
        rcases List.mem_append.mp hidx with hidx | hidx
        · cases hcur : ebvLookup st.ebv cur with
          | none => rw [hcur] at hidx; simp at hidx
          | some l0 =>
            rw [hcur] at hidx
            exact H.vidx cur l0 hcur idx hidx
        · have hie : idx = edge_index := by simpa using hidx
          exact Or.inr ⟨((nxt, cur), edge_index), alookup_mem hrev, hie⟩
      · have hv' : ¬(v = cur) := fun h => hv h.symm
        rw [ebvLookup_push_ne _ _ hv'] at hl
        exact H.vidx v l hl idx hidx
    · intro hnd e he
      obtain ⟨d1, s0, d2, hdone, hs0, hd1⟩ := H.firstTE hnd e he
      exact ⟨d1, s0, d2 ++ [(r, cur, nxt)], by rw [hdone]; simp, hs0, hd1⟩
  | none =>
    refine ⟨{ st with rbte := ((cur, nxt), r) :: st.rbte,
                      teibe := ((cur, nxt), cur) :: st.teibe,
                      terrain_edges := st.terrain_edges ++ [(cur, nxt)],
                      ebv := ebvPush st.ebv cur st.terrain_edges.length }, ?_, ?_⟩
    · simp [stepO, hrev]
    refine ⟨hsplit, ?_, ?_, ?_, ?_, ?_, ?_, ?_, ?_, ?_, ?_, ?_, ?_⟩
    · intro k hk
      by_cases hkey : (cur, nxt) = k
      · simp [alookup, hkey]
      · rw [alookup_cons_ne hkey] at hk
        rw [alookup_cons_ne hkey]
        exact H.lock k hk
    · intro e
      by_cases hkey : (cur, nxt) = e
      · subst hkey
        constructor
        · intro _; exact List.mem_append_right _ (by simp)
        · intro _; simp [alookup]
      · rw [alookup_cons_ne hkey]
        rw [H.keys e]
        constructor
        · intro he; exact List.mem_append_left _ he
        · intro he
          rcases List.mem_append.mp he with he | he
          · exact he
          · have he' : e = (cur, nxt) := by simpa using he
            exact absurd he'.symm hkey
    · intro p hp
      rcases List.mem_cons.mp hp with hp | hp
      · subst hp
        exact ⟨rfl, r, List.mem_append_right _ (by simp)⟩
      · obtain ⟨hv, r', hr'⟩ := H.tval p hp
        exact ⟨hv, r', List.mem_append_left _ hr'⟩
    · intro p hp
      rcases List.mem_cons.mp hp with hp | hp
      · subst hp
        exact List.mem_append_right _ (by simp)
      · exact List.mem_append_left _ (H.rmem p hp)
    · intro e he
      rcases List.mem_append.mp he with he | he
      · obtain ⟨r', hr'⟩ := H.emem e he
        exact ⟨r', List.mem_append_left _ hr'⟩
      · have he' : e = (cur, nxt) := by simpa using he
        subst he'
        exact ⟨r, List.mem_append_right _ (by simp)⟩
    · intro s' hs'
      rcases List.mem_append.mp hs' with hs' | hs'
      · obtain ⟨e, he, hu⟩ := H.cover s' hs'
        exact ⟨e, List.mem_append_left _ he, hu⟩
      · have hs'' : s' = (r, cur, nxt) := by simpa using hs'
        subst hs''
        exact ⟨(cur, nxt), List.mem_append_right _ (by simp), rfl⟩
    · have := H.ecount
      simp only [List.length_append, List.length_singleton]
      omega
    · intro q hq
      obtain ⟨a, b, hd, hb⟩ := H.rprov q hq
      exact ⟨a, b, List.mem_append_left _ hd, List.mem_cons_of_mem _ hb⟩
    · intro v
      by_cases hv : cur = v
      · subst hv
        rw [ebvLookup_push_self]
        simp
      · have hv' : ¬(v = cur) := fun h => hv h.symm
        rw [ebvLookup_push_ne _ _ hv']
        rw [H.vkeys v]
        simp [hv']
    · intro v l hl idx hidx
      by_cases hv : cur = v
      · subst hv
        rw [ebvLookup_push_self] at hl
        have hl' : l = (ebvLookup st.ebv cur).getD [] ++ [st.terrain_edges.length] :=
          (Option.some.inj hl).symm
        subst hl'
        rcases List.mem_append.mp hidx with hidx | hidx
        · cases hcur : ebvLookup st.ebv cur with
          | none => rw [hcur] at hidx; simp at hidx
          | some l0 =>
            rw [hcur] at hidx
            rcases H.vidx cur l0 hcur idx hidx with hlt | ⟨p, hp, hpe⟩
            · exact Or.inl (by simp; omega)
            · exact Or.inr ⟨p, List.mem_cons_of_mem _ hp, hpe⟩
        · have : idx = st.terrain_edges.length := by simpa using hidx
          subst this
          exact Or.inl (by simp)
      · have hv' : ¬(v = cur) := fun h => hv h.symm
        rw [ebvLookup_push_ne _ _ hv'] at hl
        rcases H.vidx v l hl idx hidx with hlt | ⟨p, hp, hpe⟩
        · exact Or.inl (by simp; omega)
        · exact Or.inr ⟨p, List.mem_cons_of_mem _ hp, hpe⟩
    · intro hnd
      rw [List.pairwise_append]
      refine ⟨H.nodupTE hnd, by simp, ?_⟩
      intro e he f hf
      have hf' : f = (cur, nxt) := by simpa using hf
      subst hf'
      intro hu
      rcases unord_eq_cases hu with he' | he'
      · exact not_stored_of_nodup H hnd (he' ▸ he)
      · have : ((nxt, cur) : Nat × Nat) ∈ st.terrain_edges := by
          have := he' ▸ he
          simpa using this
        have := (H.keys (nxt, cur)).mpr this
        rw [hrev] at this
        simp at this
    · intro hnd e he
      rcases List.mem_append.mp he with he | he
      · obtain ⟨d1, s0, d2, hdone, hs0, hd1⟩ := H.firstTE hnd e he
        exact ⟨d1, s0, d2 ++ [(r, cur, nxt)], by rw [hdone]; simp, hs0, hd1⟩
      · have he' : e = (cur, nxt) := by simpa using he
        subst he'
        refine ⟨done, (r, cur, nxt), [], rfl, rfl, ?_⟩
        intro s' hs' hu
        obtain ⟨e', he', hu'⟩ := H.cover s' hs'
        rw [hu] at hu'
        rcases unord_eq_cases hu' with he'' | he''
        · exact not_stored_of_nodup H hnd (he'' ▸ he')
        · have : ((nxt, cur) : Nat × Nat) ∈ st.terrain_edges := by
            have := he'' ▸ he'
            simpa using this
          have := (H.keys (nxt, cur)).mpr this
          rw [hrev] at this
          simp at this

/-- The edge-and-adjacency loop always succeeds and its result satisfies the
invariant with the whole iteration processed. -/
theorem edgePhase_inv (cells : List (List Nat)) :
    ∃ st, edgePhase cells = some st ∧ LoopInv cells st (buildSteps cells) [] := by
  have h := foldlM_option_inv stepO (fun st done rem => LoopInv cells st done rem)
    (fun s done a rest hP => LoopInv.step hP) (buildSteps cells) [] BuildState.init
    (LoopInv.start cells)
  simpa [edgePhase] using h

/-- A step of the flattened loop names a real region and traverses a directed
edge of that region's cell. -/
theorem steps_edge_mem {cells : List (List Nat)} {s : Nat × Nat × Nat}
    (hs : s ∈ buildSteps cells) :
    s.1 < cells.length ∧ (s.2.1, s.2.2) ∈ directedEdges (cells.getD s.1 []) := by
  obtain ⟨k, hk, hr, he⟩ := buildStepsAux_mem hs
  have hks : k = s.1 := by omega
  subst hks
  exact ⟨hk, he⟩

/-- Under the index-validity part of the contract, both endpoints of every
step are valid vertex indices. -/
theorem steps_valid {nverts : Nat} {cells : List (List Nat)}
    (hc : ∀ c ∈ cells, ∀ i ∈ c, i < nverts) {s : Nat × Nat × Nat}
    (hs : s ∈ buildSteps cells) : s.2.1 < nverts ∧ s.2.2 < nverts := by
  obtain ⟨hk, he⟩ := steps_edge_mem hs
  have hcell : cells.getD s.1 [] ∈ cells := by
    rw [List.getD_eq_getElem _ _ hk]
    exact List.getElem_mem _
  obtain ⟨h1, h2⟩ := directedEdges_comp_mem he
  exact ⟨hc _ hcell _ h1, hc _ hcell _ h2⟩

/-- C10: if the decomposition returns a vertex that appears in no cell, the
vertex-construction `unwrap` panics (the build yields no result); and whenever
every vertex appears in some cell, the edge loop succeeds and vertex
construction is total. -/
theorem claim_C10 (noiseAt : ℚ → ℚ → ℚ) (dtV : List (ℚ × ℚ)) (cells : List (List Nat))
    (w : Nat) :
    ((∃ i, i < dtV.length ∧ ∀ c ∈ cells, i ∉ c) → buildFrom noiseAt dtV cells w = none) ∧
    ((∀ i, i < dtV.length → ∃ c ∈ cells, i ∈ c) →
      ∃ st, edgePhase cells = some st ∧ (mkVertices noiseAt st.ebv dtV 0).isSome) := by
  obtain ⟨st, hst, HI⟩ := edgePhase_inv cells
  have hkeys : ∀ v, (ebvLookup st.ebv v).isSome ↔ ∃ c ∈ cells, v ∈ c := by
    intro v
    rw [HI.vkeys v, buildSteps, buildStepsAux_map_cur]
    simp [List.mem_flatMap]
  constructor
  · rintro ⟨i, hi, hnotin⟩
    have hnone : ebvLookup st.ebv i = none := by
      cases h : ebvLookup st.ebv i with
      | none => rfl
      | some l =>
        obtain ⟨c, hc, hic⟩ := (hkeys i).mp (by simp [h])
        exact absurd hic (hnotin c hc)
    have hfail : ¬ (mkVertices noiseAt st.ebv dtV 0).isSome := by
      rw [mkVertices_isSome]
      push_neg
      exact ⟨i, hi, by simp [Nat.zero_add, hnone]⟩
    unfold buildFrom
    cases hv : mkVertices noiseAt st.ebv dtV 0 with
    | none =>
      simp only [Option.bind_eq_bind, hst, Option.some_bind, hv, Option.none_bind]
    | some l =>
      rw [hv] at hfail
      simp at hfail
  · intro hall
    refine ⟨st, hst, ?_⟩
    rw [mkVertices_isSome]
    intro i hi
    rw [Nat.zero_add, hkeys]
    exact hall i hi

/-- Witness for C10: on three triangle vertices plus an unused fourth vertex
the build panics; with exactly the three used vertices the loop and vertex
construction succeed. -/
theorem claim_C10_witness :
    buildFrom noiseZ dtV1 cells3 50 = none ∧
    (∃ st, edgePhase cells3 = some st ∧ (mkVertices noiseZ st.ebv dtV3 0).isSome) :=
  ⟨(claim_C10 noiseZ dtV1 cells3 50).1 ⟨3, by decide, by decide⟩,
    (claim_C10 noiseZ dtV3 cells3 50).2 (by decide)⟩

/-- C4: under winding consistency the terrain edge sequence has no undirected
duplicate — any two positions carry different unordered pairs — and each
stored edge is oriented as the first traversal of its undirected boundary:
it occurs as a directed `(current, next)` pair of the iteration, strictly
before which no traversal of the same undirected edge occurs. -/
theorem claim_C4 (noiseAt : ℚ → ℚ → ℚ) (dtV : List (ℚ × ℚ)) (cells : List (List Nat))
    (w : Nat) (t : VoronoiTerrain) (hwind : windingConsistent cells)
    (hb : buildFrom noiseAt dtV cells w = some t) :
    (∀ i j, i < j → j < t.terrain_graph.edges.length →
      unord (t.terrain_graph.edges.getD i (0, 0)) ≠
        unord (t.terrain_graph.edges.getD j (0, 0))) ∧
    (∀ e ∈ t.terrain_graph.edges, ∃ d1 s0 d2, buildSteps cells = d1 ++ s0 :: d2 ∧
      (s0.2.1, s0.2.2) = e ∧ ∀ s' ∈ d1, unord (s'.2.1, s'.2.2) ≠ unord e) := by
  obtain ⟨st, tverts, regions, hst, hv, hr, rfl⟩ := buildFrom_eq hb
  obtain ⟨st', hst', HI⟩ := edgePhase_inv cells
  rw [hst] at hst'
  have heq : st' = st := (Option.some.inj hst').symm
  rw [heq] at HI
  have hnd : ((buildSteps cells).map (fun s => (s.2.1, s.2.2))).Nodup := by
    rw [buildSteps, buildStepsAux_map_edge]
    exact hwind
  have hpw := HI.nodupTE hnd
  constructor
  · intro i j hij hj
    have hi : i < st.terrain_edges.length := Nat.lt_trans hij hj
    have hrel := (List.pairwise_iff_get.mp hpw) ⟨i, hi⟩ ⟨j, hj⟩ hij
    rw [List.getD_eq_getElem _ _ hi, List.getD_eq_getElem _ _ hj]
    simpa using hrel
  · intro e he
    exact HI.firstTE hnd e he

/-- The terrain built from the two shared-edge triangles `cells1`. -/
def T4 : VoronoiTerrain := (buildFrom noiseZ dtV1 cells1 50).getD emptyTerrain

/-- Witness for C4: the two-triangle input is winding consistent and its five
terrain edges satisfy both conclusions. -/
theorem claim_C4_witness :
    windingConsistent cells1 ∧
    ((∀ i j, i < j → j < T4.terrain_graph.edges.length →
      unord (T4.terrain_graph.edges.getD i (0, 0)) ≠
        unord (T4.terrain_graph.edges.getD j (0, 0))) ∧
    (∀ e ∈ T4.terrain_graph.edges, ∃ d1 s0 d2, buildSteps cells1 = d1 ++ s0 :: d2 ∧
      (s0.2.1, s0.2.2) = e ∧ ∀ s' ∈ d1, unord (s'.2.1, s'.2.2) ≠ unord e)) :=
  ⟨by decide, claim_C4 noiseZ dtV1 cells1 50 T4 (by decide) rfl⟩

/-- In a cycle of length at least 3, moving forward twice never returns to the
start. -/
theorem succ_succ_mod_ne {n i : Nat} (h3 : 3 ≤ n) (hi : i < n) :
    ((i + 1) % n + 1) % n ≠ i := by
  intro h
  by_cases h1 : i + 1 < n
  · rw [Nat.mod_eq_of_lt h1] at h
    by_cases h2 : i + 1 + 1 < n
    · rw [Nat.mod_eq_of_lt h2] at h
      omega
    · have he : i + 1 + 1 = n := by omega
      rw [he, Nat.mod_self] at h
      omega
  · have he : i + 1 = n := by omega
    rw [he, Nat.mod_self] at h
    rw [Nat.mod_eq_of_lt (by omega)] at h
    omega

/-- A polygonal cell (at least 3 vertices, no repetition) cannot traverse the
same undirected boundary in both directions. -/
theorem both_dirs_absurd {c : List Nat} (h3 : 3 ≤ c.length) (hnd : c.Nodup)
    {a b : Nat} (hab : (a, b) ∈ directedEdges c) (hba : (b, a) ∈ directedEdges c) :
    False := by
  obtain ⟨i, hi, habe⟩ := mem_directedEdges.mp hab
  obtain ⟨j, hj, hbae⟩ := mem_directedEdges.mp hba
  have hn : 0 < c.length := by omega
  have hi1 : (i + 1) % c.length < c.length := Nat.mod_lt _ hn
  have hj1 : (j + 1) % c.length < c.length := Nat.mod_lt _ hn
  simp only [Prod.mk.injEq] at habe hbae
  -- b sits both at position (i+1) % n and at position j
  have hb2 : c.get ⟨(i + 1) % c.length, hi1⟩ = c.get ⟨j, hj⟩ := by
    rw [← List.getD_eq_get c 0 hi1, ← List.getD_eq_get c 0 hj]
    rw [← habe.2, ← hbae.1]
  -- a sits both at position i and at position (j+1) % n
  have ha2 : c.get ⟨(j + 1) % c.length, hj1⟩ = c.get ⟨i, hi⟩ := by
    rw [← List.getD_eq_get c 0 hj1, ← List.getD_eq_get c 0 hi]
    rw [← habe.1, ← hbae.2]
  have hji : (i + 1) % c.length = j := by
    have := (List.Nodup.get_inj_iff hnd).mp hb2
    simpa using this
  have hij : (j + 1) % c.length = i := by
    have := (List.Nodup.get_inj_iff hnd).mp ha2
    simpa using this
  rw [← hji] at hij
  exact succ_succ_mod_ne h3 hi hij

/-- C5 (amended): when every cell is a polygon (at least 3 distinct
vertices), every region-adjacency edge `(i, j)` pushed by `build` has
`i ≠ j`; and each traversal step contributes exactly one edge to exactly one
of the two edge lists, so each shared undirected boundary contributes exactly
one region edge — a pair of regions sharing several boundary edges appears
once per shared edge, not once overall. -/
theorem claim_C5_amended (noiseAt : ℚ → ℚ → ℚ) (dtV : List (ℚ × ℚ))
    (cells : List (List Nat)) (w : Nat) (t : VoronoiTerrain)
    (hsimple : ∀ c ∈ cells, 3 ≤ c.length ∧ c.Nodup)
    (hb : buildFrom noiseAt dtV cells w = some t) :
    (∀ q ∈ t.region_graph.edges, q.1 ≠ q.2) ∧
    t.region_graph.edges.length + t.terrain_graph.edges.length =
      (buildSteps cells).length := by
  obtain ⟨st, tverts, regions, hst, hv, hr, rfl⟩ := buildFrom_eq hb
  obtain ⟨st', hst', HI⟩ := edgePhase_inv cells
  rw [hst] at hst'
  have heq : st' = st := (Option.some.inj hst').symm
  rw [heq] at HI
  constructor
  · intro q hq hqeq
    obtain ⟨a, b, hq1, hrbte⟩ := HI.rprov q hq
    have hq2 := HI.rmem _ hrbte
    obtain ⟨hr1, he1⟩ := steps_edge_mem hq1
    obtain ⟨hr2, he2⟩ := steps_edge_mem hq2
    rw [← hqeq] at he2
    have hcell : cells.getD q.1 [] ∈ cells := by
      rw [List.getD_eq_getElem _ _ hr1]
      exact List.getElem_mem _
    obtain ⟨h3, hnd⟩ := hsimple _ hcell
    exact both_dirs_absurd h3 hnd he1 he2
  · exact HI.ecount

/-- Six vertices on a line (their positions are irrelevant to adjacency). -/
def dtV5 : List (ℚ × ℚ) := [(0, 0), (1, 0), (2, 0), (3, 0), (4, 0), (5, 0)]

/-- Two polygonal cells sharing the two disjoint boundaries `{0, 1}` and
`{2, 3}`: cell 0 traverses `(0,1)` and `(2,3)`, cell 1 traverses `(1,0)` and
`(3,2)`. -/
def cells5 : List (List Nat) := [[0, 1, 2, 3], [1, 0, 4, 3, 2, 5]]

/-- Counterexample to C5 as stated: on two winding-consistent polygonal cells
that share two distinct boundary edges, the adjacent pair of regions appears
twice in the region edge sequence, not exactly once. -/
theorem claim_C5_cex :
    (∀ c ∈ cells5, 3 ≤ c.length ∧ c.Nodup) ∧ windingConsistent cells5 ∧
    (buildFrom noiseZ dtV5 cells5 50).map (fun t => t.region_graph.edges)
      = some [(1, 0), (1, 0)] ∧
    ¬ ([((1 : Nat), (0 : Nat)), (1, 0)].Pairwise (fun q q' => unord q ≠ unord q')) := by
  refine ⟨by decide, by decide, by decide, by decide⟩

/-- The terrain built from the two shared-edge triangles, for the C5
witness. -/
def T5 : VoronoiTerrain := (buildFrom noiseZ dtV1 cells1 50).getD emptyTerrain

/-- Witness for C5 (amended): on the two-triangle input every region edge
relates two distinct regions and the edge-count identity holds. -/
theorem claim_C5_witness :
    (∀ c ∈ cells1, 3 ≤ c.length ∧ c.Nodup) ∧
    ((∀ q ∈ T5.region_graph.edges, q.1 ≠ q.2) ∧
      T5.region_graph.edges.length + T5.terrain_graph.edges.length =
        (buildSteps cells1).length) :=
  ⟨by decide, claim_C5_amended noiseZ dtV1 cells1 50 T5 (by decide) rfl⟩

/-- In a cycle of length at least 2, one forward step moves. -/
theorem succ_mod_ne {n i : Nat} (h2 : 2 ≤ n) (hi : i < n) : (i + 1) % n ≠ i := by
  intro h
  by_cases h1 : i + 1 < n
  · rw [Nat.mod_eq_of_lt h1] at h
    omega
  · have he : i + 1 = n := by omega
    rw [he, Nat.mod_self] at h
    omega

/-- Stepping forward from the cyclic predecessor returns to the position. -/
theorem pred_succ_mod {n i : Nat} (hn : 0 < n) (hi : i < n) :
    ((i + (n - 1)) % n + 1) % n = i := by
  by_cases h0 : i = 0
  · subst h0
    rw [Nat.zero_add]
    have hm : (n - 1) % n = n - 1 := Nat.mod_eq_of_lt (by omega)
    rw [hm]
    have h1 : n - 1 + 1 = n := by omega
    rw [h1, Nat.mod_self]
  · have h1 : i + (n - 1) = n + (i - 1) := by omega
    rw [h1, Nat.add_mod_left]
    have hm : (i - 1) % n = i - 1 := Nat.mod_eq_of_lt (by omega)
    rw [hm]
    have h2 : i - 1 + 1 = i := by omega
    rw [h2, Nat.mod_eq_of_lt hi]

/-- Every vertex of a polygonal cell is the head of one directed edge and the
tail of another, and the two edges have different undirected readings. -/
theorem neighbors_of_mem {c : List Nat} (h3 : 3 ≤ c.length) (hnd : c.Nodup) {v : Nat}
    (hv : v ∈ c) :
    ∃ prev nxt, (v, nxt) ∈ directedEdges c ∧ (prev, v) ∈ directedEdges c ∧
      unord (prev, v) ≠ unord (v, nxt) := by
  obtain ⟨p, hp⟩ := List.mem_iff_get.mp hv
  have hn : 0 < c.length := by omega
  have hpl : p.1 < c.length := p.2
  have hq : (p.1 + (c.length - 1)) % c.length < c.length := Nat.mod_lt _ hn
  have hq1 : ((p.1 + (c.length - 1)) % c.length + 1) % c.length = p.1 := pred_succ_mod hn hpl
  have hr2 : (p.1 + 1) % c.length < c.length := Nat.mod_lt _ hn
  have hgne : ∀ {i j : Nat}, i < c.length → j < c.length → i ≠ j →
      c.getD i 0 ≠ c.getD j 0 := by
    intro i j hi2 hj2 hij h
    rw [List.getD_eq_get c 0 hi2, List.getD_eq_get c 0 hj2] at h
    have hfin := (List.Nodup.get_inj_iff hnd).mp h
    exact hij (by simpa using hfin)
  have hvp : c.getD p.1 0 = v := by
    rw [List.getD_eq_get c 0 hpl]
    exact hp
  have hE1 : (v, c.getD ((p.1 + 1) % c.length) 0) ∈ directedEdges c := by
    rw [← hvp]
    exact mem_directedEdges.mpr ⟨p.1, hpl, rfl⟩
  have hE2 : (c.getD ((p.1 + (c.length - 1)) % c.length) 0, v) ∈ directedEdges c := by
    have hmem := mem_directedEdges.mpr
      ⟨(p.1 + (c.length - 1)) % c.length, hq, rfl⟩
    rw [hq1, hvp] at hmem
    exact hmem
  have hne_rp : (p.1 + 1) % c.length ≠ p.1 := succ_mod_ne (by omega) hpl
  have hne_qp : (p.1 + (c.length - 1)) % c.length ≠ p.1 := by
    intro h
    rw [h] at hq1
    exact succ_mod_ne (by omega) hpl hq1
  have hne_qr : (p.1 + (c.length - 1)) % c.length ≠ (p.1 + 1) % c.length := by
    intro h
    rw [h] at hq1
    exact succ_succ_mod_ne h3 hpl hq1
  refine ⟨c.getD ((p.1 + (c.length - 1)) % c.length) 0,
    c.getD ((p.1 + 1) % c.length) 0, hE1, hE2, ?_⟩
  intro hu
  rcases unord_eq_cases hu with h | h
  · have hfst : c.getD ((p.1 + (c.length - 1)) % c.length) 0 = v := congrArg Prod.fst h
    rw [← hvp] at hfst
    exact hgne hq hpl hne_qp hfst
  · have hfst : c.getD ((p.1 + (c.length - 1)) % c.length) 0
        = c.getD ((p.1 + 1) % c.length) 0 := congrArg Prod.fst h
    exact hgne hq hr2 hne_qr hfst

/-- The double-counting argument: if every vertex below `V` lies on some
polygonal cell, every directed cell edge has an undirected representative in
the deduplicated edge list, and the list has pairwise distinct undirected
readings, then there are at least as many edges as vertices. -/
theorem vertex_le_edges {cells : List (List Nat)} {TE : List (Nat × Nat)} {V : Nat}
    (hpw : TE.Pairwise (fun e f => unord e ≠ unord f))
    (hcover : ∀ c ∈ cells, ∀ e ∈ directedEdges c, ∃ f ∈ TE, unord f = unord e)
    (hsimple : ∀ c ∈ cells, 3 ≤ c.length ∧ c.Nodup)
    (hused : ∀ v, v < V → ∃ c ∈ cells, v ∈ c) :
    V ≤ TE.length := by
  have hTEnd : TE.Nodup :=
    hpw.imp (fun h heq => h (congrArg unord heq))
  have hcard : TE.toFinset.card = TE.length := List.toFinset_card_of_nodup hTEnd
  have hdeg : ∀ v ∈ Finset.range V,
      2 ≤ (TE.toFinset.filter (fun e => v = e.1 ∨ v = e.2)).card := by
    intro v hvr
    obtain ⟨c, hc, hvc⟩ := hused v (Finset.mem_range.mp hvr)
    obtain ⟨h3, hnd⟩ := hsimple c hc
    obtain ⟨prev, nxt, hE1, hE2, hne⟩ := neighbors_of_mem h3 hnd hvc
    obtain ⟨e1, he1, hu1⟩ := hcover c hc _ hE1
    obtain ⟨e2, he2, hu2⟩ := hcover c hc _ hE2
    have hne12 : e2 ≠ e1 := by
      intro h
      rw [h] at hu2
      exact hne (hu2.symm.trans hu1)
    have hinc1 : v = e1.1 ∨ v = e1.2 := by
      rcases unord_eq_cases hu1 with h | h <;> rw [h] <;> simp
    have hinc2 : v = e2.1 ∨ v = e2.2 := by
      rcases unord_eq_cases hu2 with h | h <;> rw [h] <;> simp
    have hm1 : e1 ∈ TE.toFinset.filter (fun e => v = e.1 ∨ v = e.2) :=
      Finset.mem_filter.mpr ⟨List.mem_toFinset.mpr he1, hinc1⟩
    have hm2 : e2 ∈ TE.toFinset.filter (fun e => v = e.1 ∨ v = e.2) :=
      Finset.mem_filter.mpr ⟨List.mem_toFinset.mpr he2, hinc2⟩
    have hsub : ({e2, e1} : Finset (Nat × Nat)) ⊆
        TE.toFinset.filter (fun e => v = e.1 ∨ v = e.2) := by
      intro x hx
      rcases Finset.mem_insert.mp hx with hx | hx
      · rw [hx]; exact hm2
      · rw [Finset.mem_singleton.mp hx]; exact hm1
    have h2card : ({e2, e1} : Finset (Nat × Nat)).card = 2 := by
      rw [Finset.card_insert_of_not_mem (by simp [hne12]), Finset.card_singleton]
    calc 2 = ({e2, e1} : Finset (Nat × Nat)).card := h2card.symm
      _ ≤ _ := Finset.card_le_card hsub
  have hlow : 2 * V ≤
      ∑ v ∈ Finset.range V, (TE.toFinset.filter (fun e => v = e.1 ∨ v = e.2)).card := by
    calc 2 * V = ∑ _v ∈ Finset.range V, 2 := by
          rw [Finset.sum_const, Finset.card_range, smul_eq_mul, Nat.mul_comm]
      _ ≤ _ := Finset.sum_le_sum hdeg
  have hswap : ∑ v ∈ Finset.range V, (TE.toFinset.filter (fun e => v = e.1 ∨ v = e.2)).card
      = ∑ e ∈ TE.toFinset, ((Finset.range V).filter (fun v => v = e.1 ∨ v = e.2)).card := by
    simp only [Finset.card_filter]
    exact Finset.sum_comm
  have hup : ∑ e ∈ TE.toFinset,
      ((Finset.range V).filter (fun v => v = e.1 ∨ v = e.2)).card ≤ 2 * TE.toFinset.card := by
    have hbound : ∀ e ∈ TE.toFinset,
        ((Finset.range V).filter (fun v => v = e.1 ∨ v = e.2)).card ≤ 2 := by
      intro e _
      have hsub : (Finset.range V).filter (fun v => v = e.1 ∨ v = e.2) ⊆ {e.1, e.2} := by
        intro x hx
        rcases (Finset.mem_filter.mp hx).2 with h | h <;> simp [h]
      calc ((Finset.range V).filter (fun v => v = e.1 ∨ v = e.2)).card
          ≤ ({e.1, e.2} : Finset Nat).card := Finset.card_le_card hsub
        _ ≤ 2 := by
            refine (Finset.card_insert_le _ _).trans ?_
            simp
    calc ∑ e ∈ TE.toFinset, ((Finset.range V).filter (fun v => v = e.1 ∨ v = e.2)).card
        ≤ ∑ _e ∈ TE.toFinset, 2 := Finset.sum_le_sum hbound
      _ = 2 * TE.toFinset.card := by
          rw [Finset.sum_const, smul_eq_mul, Nat.mul_comm]
  have hfinal : 2 * V ≤ 2 * TE.length := by
    rw [← hcard]
    calc 2 * V ≤ _ := hlow
      _ = _ := hswap
      _ ≤ _ := hup
  omega

/-- C2: under the tessellation contract, in a successful build every index in
a vertex's incident-edge list is a valid index into the terrain edge
sequence, and every endpoint of every terrain edge and region edge is a
valid index into the corresponding vertex sequence. -/
theorem claim_C2 (noiseAt : ℚ → ℚ → ℚ) (dtV : List (ℚ × ℚ)) (cells : List (List Nat))
    (w : Nat) (t : VoronoiTerrain) (hc : tessContract dtV.length cells)
    (hb : buildFrom noiseAt dtV cells w = some t) :
    (∀ v ∈ t.terrain_graph.vertices, ∀ idx ∈ v.edges, idx < t.terrain_graph.edges.length) ∧
    (∀ e ∈ t.terrain_graph.edges,
      e.1 < t.terrain_graph.vertices.length ∧ e.2 < t.terrain_graph.vertices.length) ∧
    (∀ q ∈ t.region_graph.edges,
      q.1 < t.region_graph.vertices.length ∧ q.2 < t.region_graph.vertices.length) := by
  obtain ⟨hcells, hwind⟩ := hc
  obtain ⟨st, tverts, regions, hst, hv, hr, rfl⟩ := buildFrom_eq hb
  obtain ⟨st', hst', HI⟩ := edgePhase_inv cells
  rw [hst] at hst'
  have heq : st' = st := (Option.some.inj hst').symm
  rw [heq] at HI
  have hlen : tverts.length = dtV.length := mkVertices_length hv
  have hrlen : regions.length = cells.length := mapM_option_length hr
  have hval : ∀ c ∈ cells, ∀ i ∈ c, i < dtV.length :=
    fun c hcm i hi => (hcells c hcm).2.2 i hi
  have hsimple : ∀ c ∈ cells, 3 ≤ c.length ∧ c.Nodup :=
    fun c hcm => ⟨(hcells c hcm).1, (hcells c hcm).2.1⟩
  have hnd : ((buildSteps cells).map (fun s => (s.2.1, s.2.2))).Nodup := by
    rw [buildSteps, buildStepsAux_map_edge]
    exact hwind
  have hpw := HI.nodupTE hnd
  have hcover : ∀ c ∈ cells, ∀ e ∈ directedEdges c,
      ∃ f ∈ st.terrain_edges, unord f = unord e := by
    intro c hcm e he
    have hmem : e ∈ (buildSteps cells).map (fun s => (s.2.1, s.2.2)) := by
      rw [buildSteps, buildStepsAux_map_edge]
      exact List.mem_flatMap.mpr ⟨c, hcm, he⟩
    obtain ⟨s, hs, hse⟩ := List.mem_map.mp hmem
    obtain ⟨f, hf, hu⟩ := HI.cover s hs
    exact ⟨f, hf, by rw [hu, hse]⟩
  have hused : ∀ v, v < dtV.length → ∃ c ∈ cells, v ∈ c := by
    intro v hvV
    have hisSome : (mkVertices noiseAt st.ebv dtV 0).isSome := by rw [hv]; rfl
    have hsome := mkVertices_isSome.mp hisSome v hvV
    rw [Nat.zero_add] at hsome
    have hmem := (HI.vkeys v).mp hsome
    rw [buildSteps, buildStepsAux_map_cur] at hmem
    obtain ⟨c, hcm, hvc⟩ := List.mem_flatMap.mp hmem
    exact ⟨c, hcm, hvc⟩
  have hVE : dtV.length ≤ st.terrain_edges.length :=
    vertex_le_edges hpw hcover hsimple hused
  refine ⟨?_, ?_, ?_⟩
  · intro vtx hvtx idx hidx
    obtain ⟨j, hj⟩ := mkVertices_edges_mem hv vtx hvtx
    rcases HI.vidx j vtx.edges hj idx hidx with hlt | ⟨p, hp, hpe⟩
    · exact hlt
    · obtain ⟨hpv, r', hr'⟩ := HI.tval p hp
      have hlt1 := (steps_valid hval hr').1
      rw [hpe, hpv]
      exact Nat.lt_of_lt_of_le hlt1 hVE
  · intro e he
    obtain ⟨r', hr'⟩ := HI.emem e he
    have hvv := steps_valid hval hr'
    show e.1 < tverts.length ∧ e.2 < tverts.length
    rw [hlen]
    exact hvv
  · intro q hq
    obtain ⟨a, b, hq1, hrbte⟩ := HI.rprov q hq
    have h1 := (steps_edge_mem hq1).1
    have h2 := (steps_edge_mem (HI.rmem _ hrbte)).1
    show q.1 < regions.length ∧ q.2 < regions.length
    rw [hrlen]
    exact ⟨h1, h2⟩

/-- The terrain built from the two shared-edge triangles, for the C2
witness. -/
def T2 : VoronoiTerrain := (buildFrom noiseZ dtV1 cells1 50).getD emptyTerrain

/-- Witness for C2: the two-triangle input satisfies the contract and the
built graphs have no dangling indices. -/
theorem claim_C2_witness :
    tessContract dtV1.length cells1 ∧
    ((∀ v ∈ T2.terrain_graph.vertices, ∀ idx ∈ v.edges,
        idx < T2.terrain_graph.edges.length) ∧
    (∀ e ∈ T2.terrain_graph.edges,
      e.1 < T2.terrain_graph.vertices.length ∧ e.2 < T2.terrain_graph.vertices.length) ∧
    (∀ q ∈ T2.region_graph.edges,
      q.1 < T2.region_graph.vertices.length ∧ q.2 < T2.region_graph.vertices.length)) :=
  ⟨by decide, claim_C2 noiseZ dtV1 cells1 50 T2 (by decide) rfl⟩
